import Mathlib

/-!
Verification of the Pikamoon NFT allocator core (allocator.py): pool building,
distribution and validation, embedded as pure Lean functions.

The Python code relies on the process-wide `random` module; we model it as an
explicit generator state (a natural number) threaded through the functions,
with a deterministic linear congruential step and a Fisher-Yates style
selection shuffle standing in for `random.shuffle`.  Percentages (Python
floats) are modelled as rationals; `int()` truncation is modelled exactly.
-/

namespace PikaAlloc

/-- An NFT with its asset address and rarity, mirroring the `NFT` dataclass. -/
structure NFT where
  asset : String
  rarity : String
deriving DecidableEq

/-- The allocation record for one wallet, mirroring the `WalletAllocation`
dataclass (the `nfts` field stores the asset/rarity records). -/
structure WalletAllocation where
  wallet : String
  nfts : List NFT
  total_nfts : Nat
deriving DecidableEq

/-- Deterministic linear congruential step, standing in for one draw from the
seeded pseudo-random generator. -/
def lcgNext (g : Nat) : Nat :=
  (6364136223846793005 * g + 1442695040888963407) % (2 ^ 64)

/-- Deterministic derivation of a generator state from a seed string,
modelling `random.seed(seed)`. -/
def seedOfString (s : String) : Nat :=
  s.data.foldl (fun h c => (h * 31 + c.toNat) % (2 ^ 64)) 5381

/-- Seeding the allocator (`NFTAllocator.__init__` calling `random.seed`)
replaces whatever generator state existed before with the state derived from
the seed string alone. -/
def seedReset (seed : String) (_g0 : Nat) : Nat :=
  seedOfString seed

/-- Selection shuffle: repeatedly pick a pseudo-random index into the
remaining list, emit that element and recurse on the rest.  This models
`random.shuffle` as a deterministic permutation driven by the generator
state.  The fuel argument is the length of the list being shuffled. -/
def shuffleAux {α : Type} : Nat → List α → Nat → List α × Nat
  | 0, l, g => (l, g)
  | _ + 1, [], g => ([], g)
  | n + 1, x :: xs, g =>
      let g2 := lcgNext g
      let k := g2 % (xs.length + 1)
      let y := (x :: xs).getD k x
      let rest := (x :: xs).eraseIdx k
      let p := shuffleAux n rest g2
      (y :: p.1, p.2)

/-- In-place shuffle of a list, deterministic in the generator state. -/
def shuffle {α : Type} (g : Nat) (l : List α) : List α × Nat :=
  shuffleAux l.length l g

/-- Lexicographic comparison of character lists by code point, which is how
Python compares strings. -/
def charsLtB : List Char → List Char → Bool
  | [], [] => false
  | [], _ :: _ => true
  | _ :: _, [] => false
  | a :: as, b :: bs =>
      if a < b then true else if b < a then false else charsLtB as bs

/-- Strict lexicographic order on strings by code point. -/
def strLt (a b : String) : Prop :=
  charsLtB a.data b.data = true

instance (a b : String) : Decidable (strLt a b) :=
  inferInstanceAs (Decidable (charsLtB a.data b.data = true))

lemma charsLtB_irrefl : ∀ l : List Char, charsLtB l l = false
  | [] => rfl
  | a :: as => by
      simp only [charsLtB, if_neg (lt_irrefl a)]
      exact charsLtB_irrefl as

lemma charsLtB_trans : ∀ as bs cs : List Char,
    charsLtB as bs = true → charsLtB bs cs = true → charsLtB as cs = true
  | [], [], _, h1, _ => by simp [charsLtB] at h1
  | [], _ :: _, [], _, h2 => by simp [charsLtB] at h2
  | [], _ :: _, _ :: _, _, _ => rfl
  | _ :: _, [], _, h1, _ => by simp [charsLtB] at h1
  | _ :: _, _ :: _, [], _, h2 => by simp [charsLtB] at h2
  | a :: as, b :: bs, c :: cs, h1, h2 => by
      simp only [charsLtB] at h1 h2 ⊢
      rcases lt_trichotomy a b with hab | hab | hab
      · rcases lt_trichotomy b c with hbc | hbc | hbc
        · rw [if_pos (hab.trans hbc)]
        · rw [if_pos (hbc ▸ hab)]
        · rw [if_pos hbc, if_neg (lt_asymm hbc)] at h2
          exact absurd h2 (by simp)
      · subst hab
        rw [if_neg (lt_irrefl a), if_neg (lt_irrefl a)] at h1
        rcases lt_trichotomy a c with hac | hac | hac
        · rw [if_pos hac]
        · subst hac
          rw [if_neg (lt_irrefl a), if_neg (lt_irrefl a)] at h2
          rw [if_neg (lt_irrefl a), if_neg (lt_irrefl a)]
          exact charsLtB_trans as bs cs h1 h2
        · rw [if_pos hac, if_neg (lt_asymm hac)] at h2
          exact absurd h2 (by simp)
      · rw [if_pos hab, if_neg (lt_asymm hab)] at h1
        exact absurd h1 (by simp)

lemma charsLtB_eq_of_not : ∀ as bs : List Char,
    charsLtB as bs = false → charsLtB bs as = false → as = bs
  | [], [], _, _ => rfl
  | [], _ :: _, h1, _ => by simp [charsLtB] at h1
  | _ :: _, [], _, h2 => by simp [charsLtB] at h2
  | a :: as, b :: bs, h1, h2 => by
      simp only [charsLtB] at h1 h2
      rcases lt_trichotomy a b with hab | hab | hab
      · rw [if_pos hab] at h1; exact absurd h1 (by simp)
      · subst hab
        rw [if_neg (lt_irrefl a), if_neg (lt_irrefl a)] at h1 h2
        rw [charsLtB_eq_of_not as bs h1 h2]
      · rw [if_pos hab] at h2; exact absurd h2 (by simp)

lemma strLt_irrefl (a : String) : ¬ strLt a a := by
  simp [strLt, charsLtB_irrefl]

lemma strLt_trans {a b c : String} (h1 : strLt a b) (h2 : strLt b c) : strLt a c :=
  charsLtB_trans a.data b.data c.data h1 h2

lemma strLt_connex {a b : String} (h1 : ¬ strLt a b) (h2 : ¬ strLt b a) : a = b := by
  have hd : a.data = b.data :=
    charsLtB_eq_of_not a.data b.data (by simpa [strLt] using h1) (by simpa [strLt] using h2)
  cases a; cases b; cases hd; rfl

/-- Lexicographic order on key-value pairs: this is how Python's `sorted`
orders the tuples produced by `dict.items()`. -/
def keyLex {β : Type} [LinearOrder β] (a b : String × β) : Prop :=
  strLt a.1 b.1 ∨ (a.1 = b.1 ∧ a.2 ≤ b.2)

instance {β : Type} [LinearOrder β] (a b : String × β) : Decidable (keyLex a b) :=
  inferInstanceAs (Decidable (strLt a.1 b.1 ∨ (a.1 = b.1 ∧ a.2 ≤ b.2)))

instance {β : Type} [LinearOrder β] : IsTotal (String × β) keyLex where
  total a b := by
    by_cases hab : strLt a.1 b.1
    · exact Or.inl (Or.inl hab)
    · by_cases hba : strLt b.1 a.1
      · exact Or.inr (Or.inl hba)
      · have h := strLt_connex hab hba
        rcases le_total a.2 b.2 with h2 | h2
        · exact Or.inl (Or.inr ⟨h, h2⟩)
        · exact Or.inr (Or.inr ⟨h.symm, h2⟩)

instance {β : Type} [LinearOrder β] : IsTrans (String × β) keyLex where
  trans a b c hab hbc := by
    rcases hab with h1 | ⟨e1, l1⟩
    · rcases hbc with h2 | ⟨e2, l2⟩
      · exact Or.inl (strLt_trans h1 h2)
      · exact Or.inl (e2 ▸ h1)
    · rcases hbc with h2 | ⟨e2, l2⟩
      · exact Or.inl (e1 ▸ h2)
      · exact Or.inr ⟨e1.trans e2, l1.trans l2⟩

instance {β : Type} [LinearOrder β] : IsAntisymm (String × β) keyLex where
  antisymm a b hab hba := by
    rcases hab with h1 | ⟨e1, l1⟩
    · rcases hba with h2 | ⟨e2, l2⟩
      · exact absurd (strLt_trans h1 h2) (strLt_irrefl a.1)
      · exact absurd h1 (by rw [e2]; exact strLt_irrefl a.1)
    · rcases hba with h2 | ⟨e2, l2⟩
      · exact absurd h2 (by rw [e1]; exact strLt_irrefl b.1)
      · exact Prod.ext e1 (le_antisymm l1 l2)

/-- Sorting a list of key-value pairs, modelling Python's
`sorted(dict.items())`. -/
def sortPairs {β : Type} [LinearOrder β] (l : List (String × β)) : List (String × β) :=
  List.insertionSort keyLex l

/-- The bucket size `int(total * percentage / 100)`: Python's `int()`
truncates towards zero, and the product `total * p / 100` is the exact
rational with numerator `total * p.num` and denominator `100 * p.den`, so the
truncated quotient of those integers is exactly the Python value. -/
def pctCount (total : Nat) (p : ℚ) : Int :=
  Int.tdiv ((total : Int) * p.num) ((100 : Int) * (p.den : Int))

/-- Per-rarity counts: every rarity except the last (in sorted order) gets
`int(total * percentage / 100)`; the last one gets whatever remains.  This is
the loop over `sorted_rarities` in `generate_nft_pool`. -/
def computeCounts (total : Nat) : List (String × ℚ) → Int → List (String × Int)
  | [], _ => []
  | (r, p) :: rest, remaining =>
      if rest.isEmpty then
        [(r, remaining)]
      else
        (r, pctCount total p) :: computeCounts total rest (remaining - pctCount total p)

/-- Assigning rarities to asset addresses from the front of the input order,
one bucket at a time; the `asset_index < len(asset_addresses)` guard in the
source makes each bucket take at most the assets that remain. -/
def buildPairs (assets : List String) : List (String × Int) → Nat → List (String × String)
  | [], _ => []
  | (r, c) :: rest, idx =>
      ((assets.drop idx).take c.toNat).map (fun a => (a, r)) ++
        buildPairs assets rest (idx + ((assets.drop idx).take c.toNat).length)

/-- Pool generation, mirroring `NFTAllocator.generate_nft_pool`.  If every
input item carries a rarity the items are wrapped directly and shuffled;
otherwise a missing or empty percentage table is a fatal configuration error,
and with a non-empty table rarities are distributed by sorted buckets and the
pairing is shuffled.  The generator state is threaded explicitly. -/
def generate_nft_pool (nft_assets : List (String × Option String))
    (rarity_percentages : Option (List (String × ℚ))) (g : Nat) :
    Except String (List NFT × Nat) :=
  let total_nfts := nft_assets.length
  let pre_assigned := (nft_assets.filter (fun p => p.2.isSome)).length
  if pre_assigned = total_nfts then
    let pool := nft_assets.map (fun p => NFT.mk p.1 (p.2.getD ""))
    let s := shuffle g pool
    Except.ok (s.1, s.2)
  else
    match rarity_percentages with
    | none => Except.error "no rarity percentages provided"
    | some percs =>
        if percs.isEmpty then Except.error "no rarity percentages provided"
        else
          let asset_addresses := nft_assets.map Prod.fst
          let sorted_rarities := sortPairs percs
          let counts := computeCounts total_nfts sorted_rarities (total_nfts : Int)
          let pairs := buildPairs asset_addresses (sortPairs counts) 0
          let s := shuffle g pairs
          Except.ok (s.1.map (fun p => NFT.mk p.1 p.2), s.2)

/-- Dictionary lookup with default 0, modelling
`eligible_wallets.get(wallet, 0)`. -/
def lookupD (w : List (String × Nat)) (k : String) : Nat :=
  match w.find? (fun p => p.1 == k) with
  | some p => p.2
  | none => 0

/-- Sum of the entitlement counts, modelling
`sum(eligible_wallets.values())`. -/
def sumValues (w : List (String × Nat)) : Nat :=
  (w.map Prod.snd).sum

/-- The allocation loop of `allocate_nfts`: walk the sorted wallet list with a
single cursor into the pool; each wallet takes the next `count` items, or as
many as remain. -/
def allocGo (pool : List NFT) : List (String × Nat) → Nat → List WalletAllocation
  | [], _ => []
  | (w, c) :: rest, idx =>
      let nfts := (pool.drop idx).take c
      WalletAllocation.mk w nfts nfts.length :: allocGo pool rest (idx + nfts.length)

/-- NFT distribution, mirroring `NFTAllocator.allocate_nfts`: wallets are
sorted for deterministic ordering and then served in order from the pool. -/
def allocate_nfts (pool : List NFT) (eligible_wallets : List (String × Nat)) :
    List WalletAllocation :=
  allocGo pool (sortPairs eligible_wallets) 0

/-- Total of the `total_nfts` fields over a list of allocations. -/
def totalAllocated (allocs : List WalletAllocation) : Nat :=
  (allocs.map (fun a => a.total_nfts)).sum

/-- Concatenation of the item lists of all allocations, in order. -/
def allocatedNfts (allocs : List WalletAllocation) : List NFT :=
  allocs.foldr (fun a r => a.nfts ++ r) []

/-- Concatenation of the allocated asset ids of all allocations, in order
(the ids collected by the final verification pass in `main`). -/
def allocatedAssets (allocs : List WalletAllocation) : List String :=
  allocs.foldr (fun a r => a.nfts.map (fun n => n.asset) ++ r) []

/-- The duplicate-detection scan of `validate_allocation`: add each asset of
one allocation to the seen set, failing on a repeat. -/
def addAssets : List NFT → List String → Option (List String)
  | [], ids => some ids
  | n :: rest, ids =>
      if n.asset ∈ ids then none else addAssets rest (n.asset :: ids)

/-- The main loop of `validate_allocation`: check each wallet's count against
its entitlement and scan its assets for duplicates, accumulating the total
allocated and the seen set. -/
def valGo (w : List (String × Nat)) :
    List WalletAllocation → Nat → List String → Option (Nat × List String)
  | [], tot, ids => some (tot, ids)
  | a :: rest, tot, ids =>
      if a.total_nfts = lookupD w a.wallet then
        match addAssets a.nfts ids with
        | none => none
        | some ids2 => valGo w rest (tot + a.total_nfts) ids2
      else none

/-- Allocation validation, mirroring `NFTAllocator.validate_allocation`:
per-wallet counts, global asset uniqueness, conservation against the
entitlement sum, and the bound against the total pool size. -/
def validate_allocation (allocs : List WalletAllocation)
    (eligible_wallets : List (String × Nat)) (total_nfts : Nat) : Bool :=
  match valGo eligible_wallets allocs 0 [] with
  | none => false
  | some (tot, _) => decide (tot = sumValues eligible_wallets) && decide (tot ≤ total_nfts)

/-- Number of items of a given rarity in a pool. -/
def rarityCount (pool : List NFT) (r : String) : Nat :=
  (pool.filter (fun n => n.rarity == r)).length

section SortLemmas

variable {β : Type} [LinearOrder β]

lemma sortPairs_perm (l : List (String × β)) : (sortPairs l).Perm l :=
  List.perm_insertionSort keyLex l

lemma sortPairs_sorted (l : List (String × β)) : List.Sorted keyLex (sortPairs l) :=
  List.sorted_insertionSort keyLex l

lemma sortPairs_length (l : List (String × β)) : (sortPairs l).length = l.length :=
  (sortPairs_perm l).length_eq

lemma sortPairs_eq_of_perm {l1 l2 : List (String × β)} (h : l1.Perm l2) :
    sortPairs l1 = sortPairs l2 :=
  List.eq_of_perm_of_sorted ((sortPairs_perm l1).trans (h.trans (sortPairs_perm l2).symm))
    (sortPairs_sorted l1) (sortPairs_sorted l2)

lemma sortPairs_eq_self {l : List (String × β)} (h : List.Sorted keyLex l) :
    sortPairs l = l :=
  List.eq_of_perm_of_sorted (sortPairs_perm l) (sortPairs_sorted l) h

/-- A sorted pair list with no duplicate keys has strictly ascending keys. -/
lemma sorted_keys_strict {l : List (String × β)} (hs : List.Sorted keyLex l)
    (hnd : (l.map Prod.fst).Nodup) :
    (l.map Prod.fst).Pairwise strLt := by
  have h1 : l.Pairwise (fun a b => a.1 ≠ b.1) := List.pairwise_map.mp hnd
  have h2 : l.Pairwise keyLex := hs
  rw [List.pairwise_map]
  refine (h2.and h1).imp (fun h => ?_)
  rcases h.1 with hl | ⟨e1, _⟩
  · exact hl
  · exact absurd e1 h.2

end SortLemmas

section LookupLemmas

lemma lookupD_eq_of_mem {w : List (String × Nat)} {k : String} {v : Nat}
    (hnd : (w.map Prod.fst).Nodup) (hm : (k, v) ∈ w) : lookupD w k = v := by
  induction w with
  | nil => cases hm
  | cons p rest ih =>
      rcases List.mem_cons.mp hm with hm | hm
      · subst hm
        simp [lookupD, List.find?_cons_of_pos]
      · by_cases hk : p.1 = k
        · exfalso
          rw [List.map_cons, List.nodup_cons] at hnd
          exact hnd.1 (hk ▸ (List.mem_map_of_mem Prod.fst hm))
        · rw [List.map_cons, List.nodup_cons] at hnd
          have : lookupD (p :: rest) k = lookupD rest k := by
            simp [lookupD, List.find?_cons_of_neg, hk]
          rw [this]
          exact ih hnd.2 hm

lemma lookupD_eq_zero_of_not_mem {w : List (String × Nat)} {k : String}
    (h : k ∉ w.map Prod.fst) : lookupD w k = 0 := by
  induction w with
  | nil => rfl
  | cons p rest ih =>
      rw [List.map_cons] at h
      simp only [List.mem_cons, not_or] at h
      have h1 : p.1 ≠ k := fun e => h.1 e.symm
      have : lookupD (p :: rest) k = lookupD rest k := by
        simp [lookupD, List.find?_cons_of_neg, h1]
      rw [this]
      exact ih h.2

lemma sumValues_cons (p : String × Nat) (rest : List (String × Nat)) :
    sumValues (p :: rest) = p.2 + sumValues rest := by
  simp [sumValues]

lemma sumValues_perm {w1 w2 : List (String × Nat)} (h : w1.Perm w2) :
    sumValues w1 = sumValues w2 :=
  (h.map Prod.snd).sum_eq

end LookupLemmas

section ShuffleLemmas

lemma get_cons_eraseIdx_perm {α : Type} :
    ∀ (l : List α) (k : Nat) (h : k < l.length),
      (l.get ⟨k, h⟩ :: l.eraseIdx k).Perm l
  | [], k, h => absurd h (by simp)
  | x :: xs, 0, _ => by simp
  | x :: xs, k + 1, h => by
      have hk : k < xs.length := by simpa using h
      have ih := get_cons_eraseIdx_perm xs k hk
      have h1 : (x :: xs).get ⟨k + 1, h⟩ :: (x :: xs).eraseIdx (k + 1)
          = xs.get ⟨k, hk⟩ :: x :: xs.eraseIdx k := by simp
      rw [h1]
      exact (List.Perm.swap x _ _).trans (ih.cons x)

lemma shuffleAux_perm {α : Type} :
    ∀ (n : Nat) (l : List α) (g : Nat), ((shuffleAux n l g).1).Perm l
  | 0, l, g => List.Perm.refl l
  | _ + 1, [], g => List.Perm.refl []
  | n + 1, x :: xs, g => by
      simp only [shuffleAux]
      set g2 := lcgNext g with hg2
      have hk : g2 % (xs.length + 1) < (x :: xs).length := by
        simp [Nat.mod_lt]
      have hget : (x :: xs).getD (g2 % (xs.length + 1)) x
          = (x :: xs).get ⟨g2 % (xs.length + 1), hk⟩ := by
        rw [List.getD_eq_getElem _ _ hk]
        simp
      rw [hget]
      exact ((shuffleAux_perm n _ g2).cons _).trans
        (get_cons_eraseIdx_perm (x :: xs) _ hk)

lemma shuffle_perm {α : Type} (g : Nat) (l : List α) : ((shuffle g l).1).Perm l :=
  shuffleAux_perm l.length l g

end ShuffleLemmas

section AllocLemmas

lemma totalAllocated_nil : totalAllocated [] = 0 := rfl

lemma totalAllocated_cons (a : WalletAllocation) (l : List WalletAllocation) :
    totalAllocated (a :: l) = a.total_nfts + totalAllocated l := by
  simp [totalAllocated]

lemma allocatedNfts_nil : allocatedNfts [] = [] := rfl

lemma allocatedNfts_cons (a : WalletAllocation) (l : List WalletAllocation) :
    allocatedNfts (a :: l) = a.nfts ++ allocatedNfts l := rfl

lemma allocatedAssets_nil : allocatedAssets [] = [] := rfl

lemma allocatedAssets_cons (a : WalletAllocation) (l : List WalletAllocation) :
    allocatedAssets (a :: l) = a.nfts.map (fun n => n.asset) ++ allocatedAssets l := rfl

lemma allocatedAssets_eq_map (l : List WalletAllocation) :
    allocatedAssets l = (allocatedNfts l).map (fun n => n.asset) := by
  induction l with
  | nil => rfl
  | cons a rest ih => simp [allocatedAssets_cons, allocatedNfts_cons, ih]

lemma take_length_take {α : Type} (l : List α) (c : Nat) :
    l.take ((l.take c).length) = l.take c := by
  rw [List.length_take]
  rcases le_total c l.length with h | h
  · rw [Nat.min_eq_left h]
  · rw [Nat.min_eq_right h, List.take_length, List.take_of_length_le h]

lemma allocGo_length (pool : List NFT) :
    ∀ (ws : List (String × Nat)) (idx : Nat), (allocGo pool ws idx).length = ws.length := by
  intro ws
  induction ws with
  | nil => intro idx; rfl
  | cons p rest ih =>
      intro idx
      cases p
      simp [allocGo, ih]

lemma allocGo_wallets (pool : List NFT) :
    ∀ (ws : List (String × Nat)) (idx : Nat),
      (allocGo pool ws idx).map (fun a => a.wallet) = ws.map Prod.fst := by
  intro ws
  induction ws with
  | nil => intro idx; rfl
  | cons p rest ih =>
      intro idx
      cases p
      simp [allocGo, ih]

lemma allocGo_counts_full (pool : List NFT) :
    ∀ (ws : List (String × Nat)) (idx : Nat), idx + sumValues ws ≤ pool.length →
      (allocGo pool ws idx).map (fun a => (a.wallet, a.total_nfts)) = ws := by
  intro ws
  induction ws with
  | nil => intro idx _; rfl
  | cons p rest ih =>
      intro idx hle
      cases p with
      | mk w c =>
          rw [sumValues_cons] at hle
          have hlen : ((pool.drop idx).take c).length = c := by
            rw [List.length_take, List.length_drop]
            omega
          simp only [allocGo, List.map_cons, hlen]
          rw [ih (idx + c) (by omega)]

lemma allocGo_total (pool : List NFT) :
    ∀ (ws : List (String × Nat)) (idx : Nat), idx ≤ pool.length →
      totalAllocated (allocGo pool ws idx) = min (sumValues ws) (pool.length - idx) := by
  intro ws
  induction ws with
  | nil => intro idx h; simp [allocGo, totalAllocated_nil, sumValues]
  | cons p rest ih =>
      intro idx h
      cases p with
      | mk w c =>
          have hlen : ((pool.drop idx).take c).length = min c (pool.length - idx) := by
            rw [List.length_take, List.length_drop]
          simp only [allocGo, totalAllocated_cons, sumValues_cons, hlen]
          rw [ih (idx + min c (pool.length - idx)) (by omega)]
          omega

lemma allocGo_flat (pool : List NFT) :
    ∀ (ws : List (String × Nat)) (idx : Nat),
      allocatedNfts (allocGo pool ws idx)
        = (pool.drop idx).take (totalAllocated (allocGo pool ws idx)) := by
  intro ws
  induction ws with
  | nil => intro idx; simp [allocGo, allocatedNfts_nil, totalAllocated_nil]
  | cons p rest ih =>
      intro idx
      cases p with
      | mk w c =>
          simp only [allocGo, allocatedNfts_cons, totalAllocated_cons]
          rw [List.take_add, take_length_take, ih (idx + ((pool.drop idx).take c).length)]
          have hd : (pool.drop idx).drop ((pool.drop idx).take c).length
              = pool.drop (idx + ((pool.drop idx).take c).length) := by
            rw [List.drop_drop, Nat.add_comm]
          rw [hd]

lemma allocGo_get (pool : List NFT) :
    ∀ (ws : List (String × Nat)) (idx : Nat), idx ≤ pool.length →
      ∀ (k : Nat) (hk : k < (allocGo pool ws idx).length) (hk2 : k < ws.length),
        ((allocGo pool ws idx).get ⟨k, hk⟩).total_nfts
          = min (ws.get ⟨k, hk2⟩).2
              (pool.length - min pool.length (idx + sumValues (ws.take k))) := by
  intro ws
  induction ws with
  | nil => intro idx _ k _ hk2; exact absurd hk2 (by simp)
  | cons p rest ih =>
      intro idx h k hk hk2
      cases p with
      | mk w c =>
          have hlen : ((pool.drop idx).take c).length = min c (pool.length - idx) := by
            rw [List.length_take, List.length_drop]
          match k with
          | 0 =>
              simp only [allocGo, List.get]
              simp only [List.take_zero, sumValues, List.map_nil, List.sum_nil]
              rw [hlen]
              omega
          | k + 1 =>
              have hk' : k < (allocGo pool rest (idx + ((pool.drop idx).take c).length)).length := by
                simpa [allocGo] using hk
              have hk2' : k < rest.length := by simpa using hk2
              have hstep : ((allocGo pool (⟨w, c⟩ :: rest) idx).get ⟨k + 1, hk⟩)
                  = (allocGo pool rest (idx + ((pool.drop idx).take c).length)).get ⟨k, hk'⟩ := by
                simp [allocGo]
              rw [hstep, ih _ (by rw [hlen]; omega) k hk' hk2']
              have htake : ((⟨w, c⟩ : String × Nat) :: rest).take (k + 1) = ⟨w, c⟩ :: rest.take k := rfl
              rw [htake, sumValues_cons]
              have hsimp : ((⟨w, c⟩ : String × Nat) :: rest).get ⟨k + 1, hk2⟩ = rest.get ⟨k, hk2'⟩ := by
                simp
              rw [hsimp, hlen]
              have : sumValues (rest.take k) ≥ 0 := Nat.zero_le _
              omega

end AllocLemmas

section ValidateLemmas

lemma addAssets_some_iff : ∀ (nfts : List NFT) (ids : List String),
    (addAssets nfts ids).isSome ↔
      ((nfts.map (fun n => n.asset)).Nodup ∧ ∀ x ∈ nfts.map (fun n => n.asset), x ∉ ids) := by
  intro nfts
  induction nfts with
  | nil => intro ids; simp [addAssets]
  | cons n rest ih =>
      intro ids
      by_cases hmem : n.asset ∈ ids
      · simp only [addAssets, if_pos hmem, List.map_cons, List.nodup_cons, List.mem_cons]
        simp only [Option.isSome_none, Bool.false_eq_true, false_iff, not_and]
        intro _ h
        exact (h n.asset (Or.inl rfl)) hmem
      · simp only [addAssets, if_neg hmem, List.map_cons, List.nodup_cons, List.mem_cons]
        rw [ih (n.asset :: ids)]
        constructor
        · rintro ⟨hnd, hdis⟩
          refine ⟨⟨fun hmm => ?_, hnd⟩, ?_⟩
          · exact (hdis n.asset hmm) (List.mem_cons_self _ _)
          · rintro x (rfl | hx)
            · exact hmem
            · intro hxids
              exact (hdis x hx) (List.mem_cons_of_mem _ hxids)
        · rintro ⟨⟨hnm, hnd⟩, hdis⟩
          refine ⟨hnd, fun x hx => ?_⟩
          intro hxc
          rcases List.mem_cons.mp hxc with rfl | hxids
          · exact hnm hx
          · exact (hdis x (Or.inr hx)) hxids

lemma addAssets_mem : ∀ (nfts : List NFT) (ids ids2 : List String),
    addAssets nfts ids = some ids2 →
      ∀ x, x ∈ ids2 ↔ (x ∈ nfts.map (fun n => n.asset) ∨ x ∈ ids) := by
  intro nfts
  induction nfts with
  | nil =>
      intro ids ids2 h x
      simp only [addAssets, Option.some.injEq] at h
      subst h
      simp
  | cons n rest ih =>
      intro ids ids2 h x
      by_cases hmem : n.asset ∈ ids
      · simp [addAssets, if_pos hmem] at h
      · rw [addAssets, if_neg hmem] at h
        rw [ih (n.asset :: ids) ids2 h x]
        simp only [List.map_cons, List.mem_cons]
        tauto

lemma valGo_some_iff (w : List (String × Nat)) :
    ∀ (allocs : List WalletAllocation) (tot : Nat) (ids : List String),
      (valGo w allocs tot ids).isSome ↔
        ((∀ a ∈ allocs, a.total_nfts = lookupD w a.wallet) ∧
         (allocatedAssets allocs).Nodup ∧
         (∀ x ∈ allocatedAssets allocs, x ∉ ids)) := by
  intro allocs
  induction allocs with
  | nil => intro tot ids; simp [valGo, allocatedAssets_nil]
  | cons a rest ih =>
      intro tot ids
      by_cases hcount : a.total_nfts = lookupD w a.wallet
      · rw [valGo, if_pos hcount]
        rcases haa : addAssets a.nfts ids with _ | ids2
        · have hni := (addAssets_some_iff a.nfts ids)
          rw [haa] at hni
          simp only [Option.isSome_none, Bool.false_eq_true, false_iff] at hni ⊢
          push_neg at hni
          intro hcontra
          rcases hcontra with ⟨_, hnd, hdis⟩
          rw [allocatedAssets_cons, List.nodup_append] at hnd
          rcases hnd with ⟨hnd1, _, _⟩
          rcases hni hnd1 with ⟨x, hx, hxids⟩
          exact (hdis x (by rw [allocatedAssets_cons]; exact List.mem_append_left _ hx)) hxids
        · rw [ih (tot + a.total_nfts) ids2]
          have hm := addAssets_mem a.nfts ids ids2 haa
          have hs := (addAssets_some_iff a.nfts ids)
          rw [haa] at hs
          simp only [Option.isSome_some, true_iff] at hs
          rcases hs with ⟨hnd1, hdis1⟩
          constructor
          · rintro ⟨hc, hnd, hdis⟩
            refine ⟨?_, ?_, ?_⟩
            · rintro b hb
              rcases List.mem_cons.mp hb with rfl | hb
              · exact hcount
              · exact hc b hb
            · rw [allocatedAssets_cons, List.nodup_append]
              refine ⟨hnd1, hnd, fun x hx hx2 => ?_⟩
              exact (hdis x hx2) ((hm x).mpr (Or.inl hx))
            · rintro x hx
              rw [allocatedAssets_cons, List.mem_append] at hx
              rcases hx with hx | hx
              · exact hdis1 x hx
              · intro hxids
                exact (hdis x hx) ((hm x).mpr (Or.inr hxids))
          · rintro ⟨hc, hnd, hdis⟩
            rw [allocatedAssets_cons, List.nodup_append] at hnd
            rcases hnd with ⟨_, hnd2, hdj⟩
            refine ⟨fun b hb => hc b (List.mem_cons_of_mem _ hb), hnd2, fun x hx hxids2 => ?_⟩
            rcases (hm x).mp hxids2 with hx1 | hx1
            · exact hdj hx1 hx
            · exact (hdis x (by rw [allocatedAssets_cons]; exact List.mem_append_right _ hx)) hx1
      · rw [valGo, if_neg hcount]
        simp only [Option.isSome_none, Bool.false_eq_true, false_iff, not_and]
        intro hc
        exact absurd (hc a (List.mem_cons_self _ _)) hcount

lemma valGo_total (w : List (String × Nat)) :
    ∀ (allocs : List WalletAllocation) (tot : Nat) (ids : List String) (tot2 : Nat) (ids2 : List String),
      valGo w allocs tot ids = some (tot2, ids2) → tot2 = tot + totalAllocated allocs := by
  intro allocs
  induction allocs with
  | nil =>
      intro tot ids tot2 ids2 h
      simp only [valGo, Option.some.injEq, Prod.mk.injEq] at h
      rw [totalAllocated_nil]
      omega
  | cons a rest ih =>
      intro tot ids tot2 ids2 h
      by_cases hcount : a.total_nfts = lookupD w a.wallet
      · rw [valGo, if_pos hcount] at h
        rcases haa : addAssets a.nfts ids with _ | mid
        · rw [haa] at h; cases h
        · rw [haa] at h
          have := ih (tot + a.total_nfts) mid tot2 ids2 h
          rw [totalAllocated_cons]
          omega
      · rw [valGo, if_neg hcount] at h
        cases h

/-- Characterization of `validate_allocation`: it returns `true` exactly when
every allocation's stored count matches the wallet's entitlement (absent
wallets counting as zero), no asset id repeats anywhere across the
concatenated allocations, the total allocated equals the entitlement sum, and
that total does not exceed the pool size. -/
lemma validate_allocation_iff (allocs : List WalletAllocation)
    (w : List (String × Nat)) (total : Nat) :
    validate_allocation allocs w total = true ↔
      ((∀ a ∈ allocs, a.total_nfts = lookupD w a.wallet) ∧
       (allocatedAssets allocs).Nodup ∧
       totalAllocated allocs = sumValues w ∧
       totalAllocated allocs ≤ total) := by
  have hiff := valGo_some_iff w allocs 0 []
  rcases hv : valGo w allocs 0 [] with _ | p
  · rw [hv] at hiff
    simp only [Option.isSome_none, Bool.false_eq_true, false_iff] at hiff
    rw [validate_allocation, hv]
    simp only [Bool.false_eq_true, false_iff]
    intro hcontra
    exact hiff ⟨hcontra.1, hcontra.2.1, by simp⟩
  · rcases p with ⟨tot, ids⟩
    have htot := valGo_total w allocs 0 [] tot ids hv
    rw [Nat.zero_add] at htot
    rw [hv] at hiff
    simp only [Option.isSome_some, true_iff] at hiff
    rw [validate_allocation, hv]
    subst htot
    constructor
    · intro h
      simp only [Bool.and_eq_true, decide_eq_true_eq] at h
      exact ⟨hiff.1, hiff.2.1, h.1, h.2⟩
    · rintro ⟨_, _, h3, h4⟩
      simp only [Bool.and_eq_true, decide_eq_true_eq]
      exact ⟨h3, h4⟩

end ValidateLemmas

section PoolLemmas

/-- Sum of the truncated-to-Nat bucket counts (the number of pairs each
bucket can contribute, before running out of assets). -/
def sumToNat (counts : List (String × Int)) : Nat :=
  (counts.map (fun rc => rc.2.toNat)).sum

lemma sumToNat_cons (a : String × Int) (l : List (String × Int)) :
    sumToNat (a :: l) = a.2.toNat + sumToNat l := by
  simp [sumToNat]

lemma sumToNat_append (l1 l2 : List (String × Int)) :
    sumToNat (l1 ++ l2) = sumToNat l1 + sumToNat l2 := by
  simp [sumToNat]

lemma sumToNat_perm {l1 l2 : List (String × Int)} (h : l1.Perm l2) :
    sumToNat l1 = sumToNat l2 := by
  unfold sumToNat
  exact (h.map (fun rc => rc.2.toNat)).sum_eq

lemma computeCounts_append (total : Nat) :
    ∀ (init : List (String × ℚ)) (lastp : String × ℚ) (rem : Int),
      computeCounts total (init ++ [lastp]) rem
        = init.map (fun rp => (rp.1, pctCount total rp.2))
            ++ [(lastp.1, rem - (init.map (fun rp => pctCount total rp.2)).sum)] := by
  intro init
  induction init with
  | nil =>
      intro lastp rem
      cases lastp
      simp [computeCounts]
  | cons a init ih =>
      intro lastp rem
      cases a with
      | mk r p =>
          rw [List.cons_append, computeCounts]
          have hne : ¬ ((init ++ [lastp]).isEmpty = true) := by
            simp
          rw [if_neg hne, ih lastp (rem - pctCount total p)]
          simp only [List.map_cons, List.sum_cons, List.cons_append]
          rw [sub_sub]

lemma computeCounts_fst (total : Nat) :
    ∀ (l : List (String × ℚ)) (rem : Int),
      (computeCounts total l rem).map Prod.fst = l.map Prod.fst := by
  intro l
  induction l with
  | nil => intro rem; rfl
  | cons a rest ih =>
      intro rem
      cases a with
      | mk r p =>
          cases rest with
          | nil => simp [computeCounts]
          | cons q rest' =>
              rw [computeCounts]
              have hne : ¬ (((q :: rest') : List (String × ℚ)).isEmpty = true) := by simp
              rw [if_neg hne]
              simp only [List.map_cons]
              rw [ih]
              simp

lemma computeCounts_sum (total : Nat) :
    ∀ (l : List (String × ℚ)) (rem : Int), l ≠ [] →
      ((computeCounts total l rem).map Prod.snd).sum = rem := by
  intro l
  induction l with
  | nil => intro rem h; exact absurd rfl h
  | cons a rest ih =>
      intro rem _
      cases a with
      | mk r p =>
          cases rest with
          | nil => simp [computeCounts]
          | cons q rest' =>
              rw [computeCounts]
              have hne : ¬ (((q :: rest') : List (String × ℚ)).isEmpty = true) := by simp
              rw [if_neg hne]
              simp only [List.map_cons, List.sum_cons]
              rw [ih (rem - pctCount total p) (by simp)]
              omega

lemma buildPairs_fst (assets : List String) :
    ∀ (counts : List (String × Int)) (idx : Nat),
      (buildPairs assets counts idx).map Prod.fst
        = (assets.drop idx).take (min (sumToNat counts) (assets.length - idx)) := by
  intro counts
  induction counts with
  | nil =>
      intro idx
      simp [buildPairs, sumToNat]
  | cons a rest ih =>
      intro idx
      cases a with
      | mk r c =>
          have hlen : ((assets.drop idx).take c.toNat).length
              = min c.toNat (assets.length - idx) := by
            rw [List.length_take, List.length_drop]
          rw [buildPairs, List.map_append, ih, sumToNat_cons]
          have hmap : (((assets.drop idx).take c.toNat).map (fun a => (a, r))).map Prod.fst
              = (assets.drop idx).take c.toNat := by
            rw [List.map_map]
            have hid : (Prod.fst ∘ fun a : String => (a, r)) = id := rfl
            rw [hid, List.map_id]
          rw [hmap, hlen]
          have hmin : min (c.toNat + sumToNat rest) (assets.length - idx)
              = min c.toNat (assets.length - idx)
                + min (sumToNat rest)
                    (assets.length - (idx + min c.toNat (assets.length - idx))) := by
            omega
          rw [hmin, List.take_add]
          congr 1
          · rw [← hlen, take_length_take]
          · rw [← hlen, List.drop_drop, Nat.add_comm]

lemma buildPairs_countP (assets : List String) :
    ∀ (counts : List (String × Int)) (idx : Nat),
      idx + sumToNat counts ≤ assets.length →
      ∀ r, ((buildPairs assets counts idx).countP (fun p => p.2 == r))
          = sumToNat (counts.filter (fun rc => rc.1 == r)) := by
  intro counts
  induction counts with
  | nil =>
      intro idx _ r
      simp [buildPairs, sumToNat]
  | cons a rest ih =>
      intro idx hfit r
      cases a with
      | mk r0 c =>
          rw [sumToNat_cons] at hfit
          have hlen : ((assets.drop idx).take c.toNat).length = c.toNat := by
            rw [List.length_take, List.length_drop]
            omega
          rw [buildPairs, List.countP_append, List.countP_map]
          rw [ih (idx + ((assets.drop idx).take c.toNat).length) (by rw [hlen]; omega) r]
          by_cases hr : r0 == r
          · rw [List.filter_cons_of_pos (by simpa using hr), sumToNat_cons]
            have hcount : List.countP ((fun p => p.2 == r) ∘ (fun a => (a, r0)))
                ((assets.drop idx).take c.toNat) = c.toNat := by
              have : ((fun p => p.2 == r) ∘ (fun a : String => (a, r0))) = fun _ => true := by
                funext a
                simpa using hr
              rw [this, List.countP_true, hlen]
            rw [hcount]
          · rw [List.filter_cons_of_neg (by simpa using hr)]
            have hcount : List.countP ((fun p => p.2 == r) ∘ (fun a => (a, r0)))
                ((assets.drop idx).take c.toNat) = 0 := by
              have : ((fun p => p.2 == r) ∘ (fun a : String => (a, r0))) = fun _ => false := by
                funext a
                simpa using hr
              rw [this, List.countP_false]
              rfl
            rw [hcount, Nat.zero_add]

lemma filter_key_nil {counts : List (String × Int)} {r : String}
    (h : r ∉ counts.map Prod.fst) :
    counts.filter (fun rc => rc.1 == r) = [] := by
  induction counts with
  | nil => rfl
  | cons a rest ih =>
      rw [List.map_cons, List.mem_cons, not_or] at h
      rw [List.filter_cons_of_neg (by simpa using fun e => h.1 e.symm)]
      exact ih h.2

lemma filter_key_singleton :
    ∀ (counts : List (String × Int)) (r : String) (c : Int),
      (counts.map Prod.fst).Nodup → (r, c) ∈ counts →
      counts.filter (fun rc => rc.1 == r) = [(r, c)] := by
  intro counts
  induction counts with
  | nil => intro r c _ hm; cases hm
  | cons a rest ih =>
      intro r c hnd hm
      rw [List.map_cons, List.nodup_cons] at hnd
      rcases List.mem_cons.mp hm with rfl | hm
      · rw [List.filter_cons_of_pos (by simp)]
        rw [filter_key_nil hnd.1]
      · have hne : a.1 ≠ r := by
          intro e
          exact hnd.1 (e ▸ List.mem_map_of_mem Prod.fst hm)
        rw [List.filter_cons_of_neg (by simpa using hne)]
        exact ih r c hnd.2 hm

/-- For a non-negative percentage, the truncated bucket count coincides with
the floor of the exact rational `total * p / 100`. -/
lemma pctCount_eq_floor (total : Nat) (p : ℚ) (hp : 0 ≤ p) :
    pctCount total p = ⌊(total : ℚ) * p / 100⌋ := by
  have hnum : 0 ≤ p.num := Rat.num_nonneg.mpr hp
  rw [pctCount, Int.tdiv_eq_ediv (by positivity) (by positivity)]
  have hcast : ((100 : Int) * (p.den : Int)) = ((100 * p.den : Nat) : Int) := by
    push_cast
    ring
  rw [hcast, ← Rat.floor_intCast_div_natCast]
  congr 1
  have hden : ((p.den : ℚ)) ≠ 0 := by
    exact_mod_cast p.den_nz
  conv_rhs => rw [← Rat.num_div_den p]
  push_cast
  field_simp
  left
  ring

lemma pctCount_nonneg (n : Nat) (p : ℚ) (hp : 0 ≤ p) : 0 ≤ pctCount n p := by
  rw [pctCount_eq_floor n p hp]
  apply Int.floor_nonneg.mpr
  positivity

/-- When the percentages are non-negative and sum to at most 100, the
truncated bucket counts sum to at most the number of items. -/
lemma floor_counts_le (n : Nat) (l : List (String × ℚ))
    (hnn : ∀ rp ∈ l, 0 ≤ rp.2) (hsum : (l.map Prod.snd).sum ≤ 100) :
    (l.map (fun rp => pctCount n rp.2)).sum ≤ (n : Int) := by
  have hcast : ∀ rp ∈ l, pctCount n rp.2 = ⌊(n : ℚ) * rp.2 / 100⌋ :=
    fun rp h => pctCount_eq_floor n rp.2 (hnn rp h)
  rw [List.map_congr_left hcast]
  have h1 : (((l.map (fun rp => ⌊(n : ℚ) * rp.2 / 100⌋)).sum : Int) : ℚ) ≤ (n : ℚ) := by
    rw [Int.cast_list_sum, List.map_map]
    have h2 : (l.map (Int.cast ∘ fun rp => ⌊(n : ℚ) * rp.2 / 100⌋)).sum
        ≤ (l.map (fun rp => (n : ℚ) * rp.2 / 100)).sum :=
      List.sum_le_sum (fun rp _ => Int.floor_le _)
    refine h2.trans ?_
    have h3 : (l.map (fun rp => (n : ℚ) * rp.2 / 100)).sum
        = ((n : ℚ) / 100) * (l.map Prod.snd).sum := by
      rw [← List.sum_map_mul_left]
      congr 1
      refine List.map_congr_left (fun rp _ => ?_)
      ring
    rw [h3]
    calc ((n : ℚ) / 100) * (l.map Prod.snd).sum
        ≤ ((n : ℚ) / 100) * 100 := by
          apply mul_le_mul_of_nonneg_left hsum (by positivity)
      _ = (n : ℚ) := by ring
  exact_mod_cast h1

lemma sumToNat_eq_of_nonneg (l : List (String × Int)) (h : ∀ rc ∈ l, 0 ≤ rc.2) :
    (sumToNat l : Int) = (l.map Prod.snd).sum := by
  induction l with
  | nil => simp [sumToNat]
  | cons a rest ih =>
      rw [sumToNat_cons, List.map_cons, List.sum_cons]
      have ha : 0 ≤ a.2 := h a (List.mem_cons_self _ _)
      have hr := ih (fun rc hrc => h rc (List.mem_cons_of_mem _ hrc))
      omega

lemma filter_isSome_all (assets : List (String × Option String)) :
    (assets.filter (fun p => p.2.isSome)).length = assets.length
      ↔ ∀ p ∈ assets, p.2.isSome = true := by
  constructor
  · intro h
    have heq := List.Sublist.eq_of_length (List.filter_sublist assets) h
    rw [List.filter_eq_self] at heq
    exact heq
  · intro h
    rw [List.filter_eq_self.mpr h]

lemma sumToNat_ge (l : List (String × Int)) :
    ((l.map Prod.snd).sum).toNat ≤ sumToNat l := by
  induction l with
  | nil => simp [sumToNat]
  | cons a rest ih =>
      rw [List.map_cons, List.sum_cons, sumToNat_cons]
      omega

lemma sorted_of_keys_strict {β : Type} [LinearOrder β] {l : List (String × β)}
    (h : (l.map Prod.fst).Pairwise strLt) : List.Sorted keyLex l := by
  rw [List.pairwise_map] at h
  exact h.imp (fun hab => Or.inl hab)

/-- Transfer rarity counts through the final shuffle and wrapping map of the
percentage branch. -/
lemma rarityCount_pipeline (g : Nat) (pairs : List (String × String)) (r : String) :
    rarityCount (((shuffle g pairs).1).map (fun p => NFT.mk p.1 p.2)) r
      = pairs.countP (fun p => p.2 == r) := by
  rw [rarityCount, ← List.countP_eq_length_filter, List.countP_map]
  exact List.Perm.countP_eq _ (shuffle_perm g pairs)

end PoolLemmas

section Claims

/-- C1: for every pool and every entitlement table in which each recipient's
count is positive and the counts sum exactly to the pool length,
`allocate_nfts` produces exactly one allocation per recipient, each
allocation's `total_nfts` equals that recipient's entitlement, and the sum of
all `total_nfts` equals both the sum of the entitlements and the pool size. -/
theorem C1_allocate_conservation (pool : List NFT) (w : List (String × Nat))
    (hnd : (w.map Prod.fst).Nodup)
    (hpos : ∀ p ∈ w, 0 < p.2)
    (hsum : sumValues w = pool.length) :
    (allocate_nfts pool w).length = w.length ∧
    ((allocate_nfts pool w).map (fun a => a.wallet)).Perm (w.map Prod.fst) ∧
    (∀ a ∈ allocate_nfts pool w, a.total_nfts = lookupD w a.wallet) ∧
    totalAllocated (allocate_nfts pool w) = sumValues w ∧
    totalAllocated (allocate_nfts pool w) = pool.length := by
  have hperm := sortPairs_perm w
  have hsum' : sumValues (sortPairs w) = pool.length := by
    rw [sumValues_perm hperm, hsum]
  have hfull := allocGo_counts_full pool (sortPairs w) 0 (by omega)
  refine ⟨?_, ?_, ?_, ?_, ?_⟩
  · rw [allocate_nfts, allocGo_length, sortPairs_length]
  · rw [allocate_nfts, allocGo_wallets]
    exact hperm.map Prod.fst
  · intro a ha
    have hmem : (a.wallet, a.total_nfts) ∈ sortPairs w := by
      rw [← hfull]
      exact List.mem_map_of_mem _ ha
    exact (lookupD_eq_of_mem hnd (hperm.mem_iff.mp hmem)).symm
  · rw [allocate_nfts, allocGo_total pool _ 0 (Nat.zero_le _), hsum', hsum]
    omega
  · rw [allocate_nfts, allocGo_total pool _ 0 (Nat.zero_le _), hsum']
    omega

/-- Witness for C1: with a five item pool and entitlements A two and B three,
the allocator returns two allocations totalling five items. -/
theorem C1_witness :
    (allocate_nfts
        [⟨"n1", "C"⟩, ⟨"n2", "C"⟩, ⟨"n3", "C"⟩, ⟨"n4", "R"⟩, ⟨"n5", "R"⟩]
        [("A", 2), ("B", 3)]).length = 2 ∧
    totalAllocated (allocate_nfts
        [⟨"n1", "C"⟩, ⟨"n2", "C"⟩, ⟨"n3", "C"⟩, ⟨"n4", "R"⟩, ⟨"n5", "R"⟩]
        [("A", 2), ("B", 3)]) = 5 := by
  have h := C1_allocate_conservation
    [⟨"n1", "C"⟩, ⟨"n2", "C"⟩, ⟨"n3", "C"⟩, ⟨"n4", "R"⟩, ⟨"n5", "R"⟩]
    [("A", 2), ("B", 3)] (by decide) (by decide) (by decide)
  exact ⟨h.1.trans (by decide), h.2.2.2.2.trans (by decide)⟩

/-- C3: seeding the generator from a seed string erases whatever state the
random source had before, so two separate runs that seed with the same string
and then build the pool once produce pools identical in content and order. -/
theorem C3_determinism (seed : String) (g0 g1 : Nat)
    (assets : List (String × Option String))
    (percs : Option (List (String × ℚ))) :
    generate_nft_pool assets percs (seedReset seed g0)
      = generate_nft_pool assets percs (seedReset seed g1) := rfl

/-- Counterexample to C4 as stated: an allocation that repeats an asset twice
inside a single allocation satisfies all four conditions of the claim (in
particular no asset appears in more than one allocation, there being only
one), yet `validate_allocation` returns false. -/
theorem C4_counterexample :
    validate_allocation
        [⟨"A", [⟨"x", "C"⟩, ⟨"x", "C"⟩], 2⟩] [("A", 2)] 2 = false ∧
    (∀ a ∈ [(⟨"A", [⟨"x", "C"⟩, ⟨"x", "C"⟩], 2⟩ : WalletAllocation)],
        a.total_nfts = lookupD [("A", 2)] a.wallet) ∧
    List.Pairwise
      (fun a b => ∀ x ∈ a.nfts.map (fun n => n.asset), x ∉ b.nfts.map (fun n => n.asset))
      [(⟨"A", [⟨"x", "C"⟩, ⟨"x", "C"⟩], 2⟩ : WalletAllocation)] ∧
    totalAllocated [⟨"A", [⟨"x", "C"⟩, ⟨"x", "C"⟩], 2⟩] = sumValues [("A", 2)] ∧
    totalAllocated [⟨"A", [⟨"x", "C"⟩, ⟨"x", "C"⟩], 2⟩] ≤ 2 :=
  ⟨by decide, by decide, List.pairwise_singleton _ _, by decide, by decide⟩

/-- C4 amended: `validate_allocation` returns true exactly when every
allocation's count equals its recipient's entitlement, no asset id appears
more than once across the concatenation of all allocations' item lists
(including within a single allocation), the sum of counts equals the sum of
entitlements, and that sum does not exceed the pool size. -/
theorem C4_validate_iff (allocs : List WalletAllocation)
    (w : List (String × Nat)) (total : Nat) :
    validate_allocation allocs w total = true ↔
      ((∀ a ∈ allocs, a.total_nfts = lookupD w a.wallet) ∧
       (allocatedAssets allocs).Nodup ∧
       totalAllocated allocs = sumValues w ∧
       totalAllocated allocs ≤ total) :=
  validate_allocation_iff allocs w total

/-- C6: allocations are emitted in strictly ascending recipient order,
independent of the entitlement table's iteration order, and the concatenation
of the allocated item lists is a prefix of the pool taken by a single
monotone cursor. -/
theorem C6_deterministic_order (pool : List NFT) (w w2 : List (String × Nat))
    (hnd : (w.map Prod.fst).Nodup) (hperm : w.Perm w2) :
    ((allocate_nfts pool w).map (fun a => a.wallet)).Pairwise strLt ∧
    allocate_nfts pool w = allocate_nfts pool w2 ∧
    allocatedNfts (allocate_nfts pool w)
      = pool.take (totalAllocated (allocate_nfts pool w)) := by
  refine ⟨?_, ?_, ?_⟩
  · rw [allocate_nfts, allocGo_wallets]
    refine sorted_keys_strict (sortPairs_sorted w) ?_
    exact (((sortPairs_perm w).map Prod.fst).nodup_iff).mpr hnd
  · rw [allocate_nfts, allocate_nfts, sortPairs_eq_of_perm hperm]
  · rw [allocate_nfts, allocGo_flat, List.drop_zero]

/-- Witness for C6: a three item pool with entitlement tables given in two
different orders produces the same output, with wallets ascending and the
allocated items a prefix of the pool. -/
theorem C6_witness :
    ((allocate_nfts [⟨"x", "C"⟩, ⟨"y", "C"⟩, ⟨"z", "R"⟩] [("B", 1), ("A", 2)]).map
        (fun a => a.wallet)).Pairwise strLt ∧
    allocate_nfts [⟨"x", "C"⟩, ⟨"y", "C"⟩, ⟨"z", "R"⟩] [("B", 1), ("A", 2)]
      = allocate_nfts [⟨"x", "C"⟩, ⟨"y", "C"⟩, ⟨"z", "R"⟩] [("A", 2), ("B", 1)] ∧
    allocatedNfts (allocate_nfts [⟨"x", "C"⟩, ⟨"y", "C"⟩, ⟨"z", "R"⟩] [("B", 1), ("A", 2)])
      = ([⟨"x", "C"⟩, ⟨"y", "C"⟩, ⟨"z", "R"⟩] : List NFT).take
          (totalAllocated (allocate_nfts [⟨"x", "C"⟩, ⟨"y", "C"⟩, ⟨"z", "R"⟩] [("B", 1), ("A", 2)])) :=
  C6_deterministic_order [⟨"x", "C"⟩, ⟨"y", "C"⟩, ⟨"z", "R"⟩]
    [("B", 1), ("A", 2)] [("A", 2), ("B", 1)] (by decide) (by decide)

/-- C8: when the entitlements sum to more than the pool length, allocation
still returns one allocation per recipient; each allocation receives the
minimum of its entitlement and whatever remains of the pool at its (sorted)
position, so the affected recipient is truncated and later recipients get
zero. -/
theorem C8_truncation (pool : List NFT) (w : List (String × Nat))
    (hover : pool.length < sumValues w) :
    (allocate_nfts pool w).length = w.length ∧
    ((allocate_nfts pool w).map (fun a => a.wallet)).Perm (w.map Prod.fst) ∧
    totalAllocated (allocate_nfts pool w) = pool.length ∧
    (∀ (k : Nat) (hk : k < (allocate_nfts pool w).length)
        (hk2 : k < (sortPairs w).length),
      ((allocate_nfts pool w).get ⟨k, hk⟩).total_nfts
        = min ((sortPairs w).get ⟨k, hk2⟩).2
            (pool.length - min pool.length (sumValues ((sortPairs w).take k)))) := by
  have hsum' : sumValues (sortPairs w) = sumValues w := sumValues_perm (sortPairs_perm w)
  refine ⟨?_, ?_, ?_, ?_⟩
  · rw [allocate_nfts, allocGo_length, sortPairs_length]
  · rw [allocate_nfts, allocGo_wallets]
    exact (sortPairs_perm w).map Prod.fst
  · rw [allocate_nfts, allocGo_total pool _ 0 (Nat.zero_le _), hsum']
    omega
  · intro k hk hk2
    have h := allocGo_get pool (sortPairs w) 0 (Nat.zero_le _) k hk hk2
    rw [Nat.zero_add] at h
    exact h

/-- Witness for C8: a two item pool against entitlements summing to five; A
gets both items, B gets zero. -/
theorem C8_witness :
    (allocate_nfts [⟨"x", "C"⟩, ⟨"y", "C"⟩] [("A", 2), ("B", 3)]).length = 2 ∧
    totalAllocated (allocate_nfts [⟨"x", "C"⟩, ⟨"y", "C"⟩] [("A", 2), ("B", 3)]) = 2 := by
  have h := C8_truncation [⟨"x", "C"⟩, ⟨"y", "C"⟩] [("A", 2), ("B", 3)] (by decide)
  exact ⟨h.1.trans (by decide), h.2.2.1.trans (by decide)⟩

/-- C9: when the pool ids are distinct and the entitlements sum exactly to
the pool length, the allocated asset ids are exactly the pool's asset ids:
the concatenation is a permutation of the pool ids and membership coincides. -/
theorem C9_completeness (pool : List NFT) (w : List (String × Nat))
    (hnd : (pool.map (fun n => n.asset)).Nodup)
    (hsum : sumValues w = pool.length) :
    (allocatedAssets (allocate_nfts pool w)).Perm (pool.map (fun n => n.asset)) ∧
    (∀ x, x ∈ allocatedAssets (allocate_nfts pool w) ↔ x ∈ pool.map (fun n => n.asset)) := by
  have hflat : allocatedNfts (allocate_nfts pool w) = pool := by
    rw [allocate_nfts, allocGo_flat, List.drop_zero,
      allocGo_total pool _ 0 (Nat.zero_le _), sumValues_perm (sortPairs_perm w), hsum]
    have hmin : min pool.length (pool.length - 0) = pool.length := by omega
    rw [hmin, List.take_length]
  rw [allocatedAssets_eq_map, hflat]
  exact ⟨List.Perm.refl _, fun x => Iff.rfl⟩

/-- Witness for C9: three items fully distributed are exactly recovered. -/
theorem C9_witness :
    (allocatedAssets (allocate_nfts [⟨"x", "C"⟩, ⟨"y", "C"⟩, ⟨"z", "R"⟩] [("A", 2), ("B", 1)])).Perm
      (([⟨"x", "C"⟩, ⟨"y", "C"⟩, ⟨"z", "R"⟩] : List NFT).map (fun n => n.asset)) :=
  (C9_completeness [⟨"x", "C"⟩, ⟨"y", "C"⟩, ⟨"z", "R"⟩] [("A", 2), ("B", 1)]
    (by decide) (by decide)).1

/-- C10: `validate_allocation` treats a recipient absent from the entitlement
table as entitled to zero items: the per-wallet count comparison for such an
allocation holds exactly when its `total_nfts` is zero, and a successful
validation forces that count to be zero. -/
theorem C10_absent_wallet (allocs : List WalletAllocation) (w : List (String × Nat))
    (total : Nat) (a : WalletAllocation) (ha : a ∈ allocs)
    (habs : a.wallet ∉ w.map Prod.fst) :
    (a.total_nfts = lookupD w a.wallet ↔ a.total_nfts = 0) ∧
    (validate_allocation allocs w total = true → a.total_nfts = 0) := by
  have h0 : lookupD w a.wallet = 0 := lookupD_eq_zero_of_not_mem habs
  refine ⟨by rw [h0], fun hv => ?_⟩
  have hc := ((validate_allocation_iff allocs w total).mp hv).1 a ha
  rw [h0] at hc
  exact hc

/-- Witness for C10: a wallet absent from the table with a zero count passes,
and validation of that list succeeds only because the count is zero. -/
theorem C10_witness :
    (((⟨"Z", [], 0⟩ : WalletAllocation).total_nfts = lookupD [("A", 0)] "Z")
        ↔ ((⟨"Z", [], 0⟩ : WalletAllocation).total_nfts = 0)) ∧
    (validate_allocation [⟨"Z", [], 0⟩] [("A", 0)] 0 = true
        → ((⟨"Z", [], 0⟩ : WalletAllocation).total_nfts = 0)) :=
  C10_absent_wallet [⟨"Z", [], 0⟩] [("A", 0)] 0 ⟨"Z", [], 0⟩
    (by decide) (by decide)

/-- Counterexample to C2 as stated: with some but not all items labeled AND a
non-empty percentage table supplied, `generate_nft_pool` succeeds (it silently
ignores the partial labels and proceeds in percentage mode) instead of
failing. -/
theorem C2_counterexample :
    ∃ r, generate_nft_pool [("a", some "Common"), ("b", none)]
        (some [("Common", (50 : ℚ)), ("Rare", 50)]) 0 = Except.ok r :=
  ⟨_, rfl⟩

/-- C2 amended: for every input in which some but not all items carry a
rarity label, `generate_nft_pool` fails with a configuration error when the
percentage table is absent or empty. -/
theorem C2_mixed_labels_error (assets : List (String × Option String))
    (percs : Option (List (String × ℚ))) (g : Nat)
    (hsome : ∃ p ∈ assets, p.2.isSome = true)
    (hnone : ∃ p ∈ assets, p.2 = none)
    (hp : percs = none ∨ percs = some []) :
    ∃ e, generate_nft_pool assets percs g = Except.error e := by
  have hlt : (assets.filter (fun p => p.2.isSome)).length < assets.length := by
    rw [List.length_filter_lt_length_iff_exists]
    obtain ⟨p, hp1, hp2⟩ := hnone
    exact ⟨p, hp1, by simp [hp2]⟩
  have hne : ¬ ((assets.filter (fun p => p.2.isSome)).length = assets.length) := by omega
  rcases hp with rfl | rfl
  · refine ⟨"no rarity percentages provided", ?_⟩
    simp only [generate_nft_pool, if_neg hne]
  · refine ⟨"no rarity percentages provided", ?_⟩
    simp only [generate_nft_pool, if_neg hne]
    rfl

/-- Witness for the amended C2: one labeled and one unlabeled item with no
percentage table is rejected. -/
theorem C2_witness :
    ∃ e, generate_nft_pool [("a", some "Common"), ("b", none)] none 0
      = Except.error e := by
  obtain ⟨e, he⟩ := C2_mixed_labels_error [("a", some "Common"), ("b", none)] none 0
    ⟨("a", some "Common"), by decide, by decide⟩
    ⟨("b", none), by decide, rfl⟩ (Or.inl rfl)
  exact ⟨e, he⟩

/-- C7: for distinct input ids, in pre-assigned mode or with a non-empty
percentage table, the generated pool has the length of the input, its asset
ids are a permutation of the input ids (hence each id appears exactly once),
and in pre-assigned mode the (id, rarity) pairs are a permutation of the
input pairs. -/
theorem C7_pool_is_permutation (assets : List (String × Option String))
    (percs : Option (List (String × ℚ))) (g : Nat)
    (hnd : (assets.map Prod.fst).Nodup)
    (hmode : (∀ p ∈ assets, p.2.isSome = true) ∨ (∃ ps, percs = some ps ∧ ps ≠ [])) :
    ∃ pool g2, generate_nft_pool assets percs g = Except.ok (pool, g2) ∧
      pool.length = assets.length ∧
      (pool.map (fun n => n.asset)).Perm (assets.map Prod.fst) ∧
      (∀ x ∈ assets.map Prod.fst, (pool.map (fun n => n.asset)).count x = 1) ∧
      ((∀ p ∈ assets, p.2.isSome = true) →
        (pool.map (fun n => (n.asset, n.rarity))).Perm
          (assets.map (fun p => (p.1, p.2.getD "")))) := by
  by_cases hall : (assets.filter (fun p => p.2.isSome)).length = assets.length
  · -- pre-assigned branch
    have hperm : ((shuffle g (assets.map (fun p => NFT.mk p.1 (p.2.getD "")))).1).Perm
        (assets.map (fun p => NFT.mk p.1 (p.2.getD ""))) := shuffle_perm _ _
    have hassets : ((shuffle g (assets.map (fun p => NFT.mk p.1 (p.2.getD "")))).1.map
        (fun n => n.asset)).Perm (assets.map Prod.fst) := by
      have h1 := hperm.map (fun n => n.asset)
      rw [List.map_map] at h1
      exact h1
    refine ⟨_, _, by simp only [generate_nft_pool, if_pos hall]; rfl, ?_, hassets, ?_, ?_⟩
    · rw [hperm.length_eq, List.length_map]
    · intro x hx
      rw [hassets.count_eq x]
      exact List.count_eq_one_of_mem hnd hx
    · intro _
      have h1 := hperm.map (fun n => (n.asset, n.rarity))
      rw [List.map_map] at h1
      exact h1
  · rcases hmode with hall2 | ⟨ps, rfl, hpsne⟩
    · exact absurd ((filter_isSome_all assets).mpr hall2) hall
    · -- percentage branch
      have hPS : ¬ (ps.isEmpty = true) := by
        simpa [List.isEmpty_iff] using hpsne
      have hsne : sortPairs ps ≠ [] := by
        have hl : (sortPairs ps).length = ps.length := sortPairs_length ps
        have : ps.length ≠ 0 := fun h => hpsne (List.length_eq_zero.mp h)
        intro hcon
        rw [hcon] at hl
        exact this hl.symm
      have hcs : ((computeCounts assets.length (sortPairs ps)
          (assets.length : Int)).map Prod.snd).sum = (assets.length : Int) :=
        computeCounts_sum assets.length (sortPairs ps) (assets.length : Int) hsne
      have hge : assets.length
          ≤ sumToNat (sortPairs (computeCounts assets.length (sortPairs ps)
              (assets.length : Int))) := by
        rw [sumToNat_perm (sortPairs_perm _)]
        have h1 := sumToNat_ge (computeCounts assets.length (sortPairs ps)
          (assets.length : Int))
        rw [hcs] at h1
        simpa using h1
      have hfst : (buildPairs (assets.map Prod.fst)
          (sortPairs (computeCounts assets.length (sortPairs ps)
            (assets.length : Int))) 0).map Prod.fst = assets.map Prod.fst := by
        rw [buildPairs_fst, List.drop_zero]
        have hm : min (sumToNat (sortPairs (computeCounts assets.length (sortPairs ps)
            (assets.length : Int)))) ((assets.map Prod.fst).length - 0)
            = (assets.map Prod.fst).length := by
          rw [List.length_map]
          omega
        rw [hm, List.take_length]
      have hperm : ((shuffle g (buildPairs (assets.map Prod.fst)
          (sortPairs (computeCounts assets.length (sortPairs ps)
            (assets.length : Int))) 0)).1).Perm
          (buildPairs (assets.map Prod.fst)
            (sortPairs (computeCounts assets.length (sortPairs ps)
              (assets.length : Int))) 0) := shuffle_perm _ _
      have hassets : (((shuffle g (buildPairs (assets.map Prod.fst)
          (sortPairs (computeCounts assets.length (sortPairs ps)
            (assets.length : Int))) 0)).1.map (fun p => NFT.mk p.1 p.2)).map
          (fun n => n.asset)).Perm (assets.map Prod.fst) := by
        rw [List.map_map]
        have h1 := hperm.map Prod.fst
        rw [hfst] at h1
        exact h1
      refine ⟨_, _, by simp only [generate_nft_pool, if_neg hall, if_neg hPS]; rfl, ?_, hassets, ?_, ?_⟩
      · rw [List.length_map, hperm.length_eq]
        have : ((buildPairs (assets.map Prod.fst)
            (sortPairs (computeCounts assets.length (sortPairs ps)
              (assets.length : Int))) 0).map Prod.fst).length
            = (assets.map Prod.fst).length := by rw [hfst]
        rw [List.length_map, List.length_map] at this
        rw [this]
      · intro x hx
        rw [hassets.count_eq x]
        exact List.count_eq_one_of_mem hnd hx
      · intro hall2
        exact absurd ((filter_isSome_all assets).mpr hall2) hall

/-- Witness for C7: two pre-assigned items come back as a permutation with
rarities intact, and a percentage-mode run on unlabeled items also yields a
pool of the input ids. -/
theorem C7_witness :
    ∃ pool g2, generate_nft_pool [("a", some "C"), ("b", some "R")] none 7
        = Except.ok (pool, g2) ∧ pool.length = 2 := by
  obtain ⟨pool, g2, h1, h2, _, _, _⟩ :=
    C7_pool_is_permutation [("a", some "C"), ("b", some "R")] none 7
      (by decide) (Or.inl (by decide))
  exact ⟨pool, g2, h1, by rw [h2]; rfl⟩

set_option maxHeartbeats 1000000 in
/-- C5 amended: in percentage mode (non-empty input, all items unlabeled,
non-empty percentage table with distinct rarities), when every percentage
lies in 0 to 100 AND the percentages sum to at most 100, every bucket except
the last in sorted order receives exactly floor(n * percentage / 100) items,
the last bucket absorbs all remaining items, and the bucket sizes sum to
exactly n.  (The original claim, without the sum bound, is refuted by
`C5_counterexample`.) -/
theorem C5_percentage_rounding (assets : List (String × Option String))
    (percs : List (String × ℚ)) (g : Nat)
    (hne : assets ≠ []) (hunlab : ∀ p ∈ assets, p.2 = none)
    (hpne : percs ≠ []) (hknd : (percs.map Prod.fst).Nodup)
    (hrange : ∀ rp ∈ percs, 0 ≤ rp.2 ∧ rp.2 ≤ 100)
    (hsum : (percs.map Prod.snd).sum ≤ 100) :
    ∃ pool g2 init lastp,
      generate_nft_pool assets (some percs) g = Except.ok (pool, g2) ∧
      sortPairs percs = init ++ [lastp] ∧
      (∀ rp ∈ init, rarityCount pool rp.1
          = (⌊(assets.length : ℚ) * rp.2 / 100⌋).toNat) ∧
      rarityCount pool lastp.1
        = assets.length
            - (init.map (fun rp => (⌊(assets.length : ℚ) * rp.2 / 100⌋).toNat)).sum ∧
      ((sortPairs percs).map (fun rp => rarityCount pool rp.1)).sum = assets.length := by
  -- the percentage branch is taken
  have hfilter : assets.filter (fun p => p.2.isSome) = [] :=
    List.filter_eq_nil_iff.mpr (fun p hp => by rw [hunlab p hp]; simp)
  have hnz : assets.length ≠ 0 := fun h => hne (List.length_eq_zero.mp h)
  have hmix : ¬ ((assets.filter (fun p => p.2.isSome)).length = assets.length) := by
    rw [hfilter]
    simpa using fun h => hnz h.symm
  have hPS : ¬ (percs.isEmpty = true) := by
    simpa [List.isEmpty_iff] using hpne
  -- sorted percentages and their decomposition
  have hsperm : (sortPairs percs).Perm percs := sortPairs_perm percs
  have hsne : sortPairs percs ≠ [] := by
    have hl : (sortPairs percs).length = percs.length := sortPairs_length percs
    intro hcon
    rw [hcon] at hl
    exact hpne (List.length_eq_zero.mp hl.symm)
  have hdecomp : (sortPairs percs).dropLast ++ [(sortPairs percs).getLast hsne]
      = sortPairs percs := List.dropLast_append_getLast hsne
  have hsknd : ((sortPairs percs).map Prod.fst).Nodup :=
    ((hsperm.map Prod.fst).nodup_iff).mpr hknd
  have hsrange : ∀ rp ∈ sortPairs percs, 0 ≤ rp.2 ∧ rp.2 ≤ 100 :=
    fun rp h => hrange rp (hsperm.subset h)
  have hinitmem : ∀ rp ∈ (sortPairs percs).dropLast, rp ∈ sortPairs percs :=
    fun rp h => (List.dropLast_sublist _).subset h
  have hinitnn : ∀ rp ∈ (sortPairs percs).dropLast, 0 ≤ rp.2 :=
    fun rp h => (hsrange rp (hinitmem rp h)).1
  have hlastnn : 0 ≤ ((sortPairs percs).getLast hsne).2 :=
    (hsrange _ (List.getLast_mem hsne)).1
  have hssum : ((sortPairs percs).map Prod.snd).sum = (percs.map Prod.snd).sum :=
    (hsperm.map Prod.snd).sum_eq
  have hinitsum : (((sortPairs percs).dropLast).map Prod.snd).sum
      + ((sortPairs percs).getLast hsne).2 = ((sortPairs percs).map Prod.snd).sum := by
    conv_rhs => rw [← hdecomp]
    simp
  have hinitsum100 : (((sortPairs percs).dropLast).map Prod.snd).sum ≤ 100 := by
    rw [hssum] at hinitsum
    linarith
  -- the truncated bucket counts of the non-last buckets
  have hT_le : (((sortPairs percs).dropLast).map
      (fun rp => pctCount assets.length rp.2)).sum ≤ (assets.length : Int) :=
    floor_counts_le assets.length _ hinitnn hinitsum100
  have hT_nn : 0 ≤ (((sortPairs percs).dropLast).map
      (fun rp => pctCount assets.length rp.2)).sum :=
    List.sum_nonneg (by
      intro x hx
      obtain ⟨rp, hrp, rfl⟩ := List.mem_map.mp hx
      exact pctCount_nonneg assets.length rp.2 (hinitnn rp hrp))
  -- the computed counts decompose as the floors plus the absorbing remainder
  have hcounts : computeCounts assets.length (sortPairs percs) (assets.length : Int)
      = ((sortPairs percs).dropLast).map
          (fun rp => (rp.1, pctCount assets.length rp.2))
        ++ [(((sortPairs percs).getLast hsne).1,
              (assets.length : Int)
                - (((sortPairs percs).dropLast).map
                    (fun rp => pctCount assets.length rp.2)).sum)] := by
    conv_lhs => rw [← hdecomp]
    rw [computeCounts_append]
  have hckeys : (computeCounts assets.length (sortPairs percs)
      ((assets.length : Nat) : Int)).map Prod.fst = (sortPairs percs).map Prod.fst :=
    computeCounts_fst assets.length (sortPairs percs) ((assets.length : Nat) : Int)
  have hcknd : ((computeCounts assets.length (sortPairs percs)
      (assets.length : Int)).map Prod.fst).Nodup := by
    rw [hckeys]
    exact hsknd
  have hcsorted : List.Sorted keyLex
      (computeCounts assets.length (sortPairs percs) (assets.length : Int)) := by
    apply sorted_of_keys_strict
    rw [hckeys]
    exact sorted_keys_strict (sortPairs_sorted percs) hsknd
  have hcounts' : sortPairs (computeCounts assets.length (sortPairs percs)
      (assets.length : Int)) = computeCounts assets.length (sortPairs percs)
      (assets.length : Int) := sortPairs_eq_self hcsorted
  -- the counts exhaust the assets exactly
  have hsnd_initC : (((sortPairs percs).dropLast).map
      (fun rp => (rp.1, pctCount assets.length rp.2))).map Prod.snd
      = ((sortPairs percs).dropLast).map (fun rp => pctCount assets.length rp.2) := by
    rw [List.map_map]
    rfl
  have hstn_initC : (sumToNat (((sortPairs percs).dropLast).map
      (fun rp => (rp.1, pctCount assets.length rp.2))) : Int)
      = (((sortPairs percs).dropLast).map (fun rp => pctCount assets.length rp.2)).sum := by
    rw [sumToNat_eq_of_nonneg, hsnd_initC]
    intro rc hrc
    obtain ⟨rp, hrp, rfl⟩ := List.mem_map.mp hrc
    exact pctCount_nonneg assets.length rp.2 (hinitnn rp hrp)
  have hstn : sumToNat (computeCounts assets.length (sortPairs percs)
      (assets.length : Int)) = assets.length := by
    rw [hcounts, sumToNat_append, sumToNat_cons]
    have h0 : sumToNat ([] : List (String × Int)) = 0 := rfl
    rw [h0]
    have h1 := hstn_initC
    have h2 := hT_le
    have h3 := hT_nn
    omega
  have hfits : 0 + sumToNat (computeCounts assets.length (sortPairs percs)
      (assets.length : Int)) ≤ (assets.map Prod.fst).length := by
    rw [hstn, List.length_map]
    omega
  have hsingle : ∀ (k : String) (v : Int), sumToNat [(k, v)] = v.toNat := by
    intro k v
    simp [sumToNat]
  -- rarity counts in the final pool, bucket by bucket
  have hrc : ∀ r, rarityCount (((shuffle g (buildPairs (assets.map Prod.fst)
      (sortPairs (computeCounts assets.length (sortPairs percs)
        (assets.length : Int))) 0)).1).map (fun p => NFT.mk p.1 p.2)) r
      = sumToNat ((computeCounts assets.length (sortPairs percs)
          (assets.length : Int)).filter (fun rc => rc.1 == r)) := by
    intro r
    rw [rarityCount_pipeline, hcounts']
    rw [buildPairs_countP (assets.map Prod.fst) _ 0 hfits r]
  have hbucket : ∀ rp ∈ (sortPairs percs).dropLast,
      rarityCount (((shuffle g (buildPairs (assets.map Prod.fst)
        (sortPairs (computeCounts assets.length (sortPairs percs)
          (assets.length : Int))) 0)).1).map (fun p => NFT.mk p.1 p.2)) rp.1
      = (pctCount assets.length rp.2).toNat := by
    intro rp hrp
    have hmemc : (rp.1, pctCount assets.length rp.2)
        ∈ computeCounts assets.length (sortPairs percs) (assets.length : Int) := by
      rw [hcounts]
      exact List.mem_append_left _ (List.mem_map_of_mem _ hrp)
    rw [hrc rp.1, filter_key_singleton _ rp.1 (pctCount assets.length rp.2) hcknd hmemc,
      hsingle]
  have hmemlast : (((sortPairs percs).getLast hsne).1,
      (assets.length : Int) - (((sortPairs percs).dropLast).map
        (fun rp => pctCount assets.length rp.2)).sum)
      ∈ computeCounts assets.length (sortPairs percs) (assets.length : Int) := by
    rw [hcounts]
    exact List.mem_append_right _ (List.mem_singleton.mpr rfl)
  have hlastc : rarityCount (((shuffle g (buildPairs (assets.map Prod.fst)
      (sortPairs (computeCounts assets.length (sortPairs percs)
        (assets.length : Int))) 0)).1).map (fun p => NFT.mk p.1 p.2))
      (((sortPairs percs).getLast hsne).1)
      = ((assets.length : Int) - (((sortPairs percs).dropLast).map
          (fun rp => pctCount assets.length rp.2)).sum).toNat := by
    rw [hrc, filter_key_singleton _ _ _ hcknd hmemlast, hsingle]
  have hS : (((((sortPairs percs).dropLast).map
      (fun rp => (pctCount assets.length rp.2).toNat)).sum : Nat) : Int)
      = (((sortPairs percs).dropLast).map (fun rp => pctCount assets.length rp.2)).sum := by
    rw [← hstn_initC]
    congr 1
    rw [sumToNat, List.map_map]
    rfl
  have hmapfl : ((sortPairs percs).dropLast).map
      (fun rp => (⌊(assets.length : ℚ) * rp.2 / 100⌋).toNat)
      = ((sortPairs percs).dropLast).map
          (fun rp => (pctCount assets.length rp.2).toNat) :=
    List.map_congr_left (fun rp h => by
      rw [pctCount_eq_floor assets.length rp.2 (hinitnn rp h)])
  refine ⟨((shuffle g (buildPairs (assets.map Prod.fst)
      (sortPairs (computeCounts assets.length (sortPairs percs)
        (assets.length : Int))) 0)).1).map (fun p => NFT.mk p.1 p.2),
    (shuffle g (buildPairs (assets.map Prod.fst)
      (sortPairs (computeCounts assets.length (sortPairs percs)
        (assets.length : Int))) 0)).2,
    (sortPairs percs).dropLast, (sortPairs percs).getLast hsne,
    by simp only [generate_nft_pool, if_neg hmix, if_neg hPS],
    hdecomp.symm, ?_, ?_, ?_⟩
  · intro rp hrp
    rw [hbucket rp hrp, pctCount_eq_floor assets.length rp.2 (hinitnn rp hrp)]
  · rw [hlastc, hmapfl]
    have h2 := hT_le
    have h3 := hT_nn
    have h4 := hS
    omega
  · have hsplit := congrArg (List.map
      (fun rp => rarityCount (((shuffle g (buildPairs (assets.map Prod.fst)
        (sortPairs (computeCounts assets.length (sortPairs percs)
          (assets.length : Int))) 0)).1).map (fun p => NFT.mk p.1 p.2)) rp.1)) hdecomp
    rw [← hsplit, List.map_append, List.sum_append, List.map_congr_left hbucket]
    have hlast1 : ([((sortPairs percs).getLast hsne)].map
        (fun rp => rarityCount (((shuffle g (buildPairs (assets.map Prod.fst)
          (sortPairs (computeCounts assets.length (sortPairs percs)
            (assets.length : Int))) 0)).1).map (fun p => NFT.mk p.1 p.2)) rp.1)).sum
        = ((assets.length : Int) - (((sortPairs percs).dropLast).map
            (fun rp => pctCount assets.length rp.2)).sum).toNat := by
      simp only [List.map_cons, List.map_nil, List.sum_cons, List.sum_nil]
      rw [hlastc]
      omega
    rw [hlast1]
    have h2 := hT_le
    have h3 := hT_nn
    have h4 := hS
    omega

/-- Counterexample to C5 as stated: with ten unlabeled items and percentage
table A, B, C all at 90 (each entry within 0 and 100), bucket B is not last
in lexicographic order yet receives 1 item instead of
floor(10 * 90 / 100) = 9: the earlier buckets exhaust the assets, so the
claimed per-bucket formula fails even though every entry lies in 0 to 100. -/
theorem C5_counterexample :
    ∃ pool g2, generate_nft_pool
        [("a0", none), ("a1", none), ("a2", none), ("a3", none), ("a4", none),
         ("a5", none), ("a6", none), ("a7", none), ("a8", none), ("a9", none)]
        (some [("A", (90 : ℚ)), ("B", 90), ("C", 90)]) 0 = Except.ok (pool, g2) ∧
      sortPairs [("A", (90 : ℚ)), ("B", 90), ("C", 90)]
        = [("A", (90 : ℚ)), ("B", 90)] ++ [("C", 90)] ∧
      ("B", (90 : ℚ)) ∈ [("A", (90 : ℚ)), ("B", 90)] ∧
      (∀ rp ∈ [("A", (90 : ℚ)), ("B", 90), ("C", 90)], 0 ≤ rp.2 ∧ rp.2 ≤ 100) ∧
      rarityCount pool "B" = 1 ∧
      (⌊(([("a0", none), ("a1", none), ("a2", none), ("a3", none), ("a4", none),
            ("a5", none), ("a6", none), ("a7", none), ("a8", none),
            ("a9", none)] : List (String × Option String)).length : ℚ) * 90 / 100⌋).toNat = 9 := by
  refine ⟨_, _, rfl, by decide, by decide, by decide, by decide, ?_⟩
  have h9 : ⌊((10 : Nat) : ℚ) * 90 / 100⌋ = 9 := by norm_num
  have hlen : (([("a0", none), ("a1", none), ("a2", none), ("a3", none), ("a4", none),
      ("a5", none), ("a6", none), ("a7", none), ("a8", none),
      ("a9", none)] : List (String × Option String)).length) = 10 := rfl
  rw [hlen, h9]
  rfl

/-- Witness for the amended C5: ten unlabeled items with Common 70 and
Rare 30 give exactly 7 Common (the non-last bucket floor) and 3 Rare (the
absorbing last bucket), summing to 10. -/
theorem C5_witness :
    ∃ pool g2 init lastp,
      generate_nft_pool
          [("a0", none), ("a1", none), ("a2", none), ("a3", none), ("a4", none),
           ("a5", none), ("a6", none), ("a7", none), ("a8", none), ("a9", none)]
          (some [("Common", (70 : ℚ)), ("Rare", 30)]) 0 = Except.ok (pool, g2) ∧
      sortPairs [("Common", (70 : ℚ)), ("Rare", 30)] = init ++ [lastp] ∧
      (∀ rp ∈ init, rarityCount pool rp.1
          = (⌊(([("a0", none), ("a1", none), ("a2", none), ("a3", none), ("a4", none),
                ("a5", none), ("a6", none), ("a7", none), ("a8", none),
                ("a9", none)] : List (String × Option String)).length : ℚ)
                * rp.2 / 100⌋).toNat) ∧
      rarityCount pool lastp.1
        = ([("a0", none), ("a1", none), ("a2", none), ("a3", none), ("a4", none),
            ("a5", none), ("a6", none), ("a7", none), ("a8", none),
            ("a9", none)] : List (String × Option String)).length
            - (init.map (fun rp =>
                (⌊(([("a0", none), ("a1", none), ("a2", none), ("a3", none), ("a4", none),
                    ("a5", none), ("a6", none), ("a7", none), ("a8", none),
                    ("a9", none)] : List (String × Option String)).length : ℚ)
                    * rp.2 / 100⌋).toNat)).sum ∧
      ((sortPairs [("Common", (70 : ℚ)), ("Rare", 30)]).map
          (fun rp => rarityCount pool rp.1)).sum
        = ([("a0", none), ("a1", none), ("a2", none), ("a3", none), ("a4", none),
            ("a5", none), ("a6", none), ("a7", none), ("a8", none),
            ("a9", none)] : List (String × Option String)).length :=
  C5_percentage_rounding
    [("a0", none), ("a1", none), ("a2", none), ("a3", none), ("a4", none),
     ("a5", none), ("a6", none), ("a7", none), ("a8", none), ("a9", none)]
    [("Common", (70 : ℚ)), ("Rare", 30)] 0
    (by decide) (by decide) (by decide) (by decide) (by decide) (by norm_num)

end Claims

end PikaAlloc
